import Mathlib

/-!
Verification of the hosts-file section manager and CIDR resolver of
`make-your-choice` (files `src/linux/src/hosts.rs`, `src/linux/src/aws_ranges.rs`,
`src/linux/src/region.rs`).

The hosts-file content is modelled as a `List Char` (one element per byte of the
Rust `String`; all constants involved are ASCII, so byte indices and element
indices coincide).  Rust's string primitives used by the source
(`str::find`, slicing at found indices, `str::lines`, `str::trim`,
`str::split_whitespace`, `char::to_lowercase`, `str::split('/')`) are embedded
as executable functions below.
-/

namespace MYC

/-- The characters of a string literal. -/
def str (s : String) : List Char := s.data

/-- Embedding of Rust `char::is_whitespace` restricted to the ASCII whitespace
characters that `Char.isWhitespace` recognises (space, tab, CR, LF). -/
def isWsp (c : Char) : Bool := c.isWhitespace

/-- Embedding of Rust `str::trim`: drop whitespace from both ends. -/
def trimL (s : List Char) : List Char :=
  ((s.dropWhile isWsp).reverse.dropWhile isWsp).reverse

/-- Embedding of Rust `str::to_lowercase` (ASCII model). -/
def toLowerL (s : List Char) : List Char := s.map Char.toLower

/-- Embedding of Rust `str::split(sep)` for a one-character separator. -/
def splitOnChar (sep : Char) : List Char → List (List Char)
  | [] => [[]]
  | c :: t =>
    if c = sep then [] :: splitOnChar sep t
    else
      match splitOnChar sep t with
      | [] => [[c]]
      | h :: r => (c :: h) :: r

/-- Worker for `splitWs`; `cur` holds the (reversed) current word. -/
def splitWsAux : List Char → List Char → List (List Char)
  | [], cur => if cur = [] then [] else [cur.reverse]
  | c :: t, cur =>
    if isWsp c then
      if cur = [] then splitWsAux t [] else cur.reverse :: splitWsAux t []
    else splitWsAux t (c :: cur)

/-- Embedding of Rust `str::split_whitespace`: maximal non-whitespace runs. -/
def splitWs (s : List Char) : List (List Char) := splitWsAux s []

/-- Strip one trailing carriage return (the `\r` of a `\r\n` line ending). -/
def stripCR (l : List Char) : List Char :=
  if l.getLast? = some '\r' then l.dropLast else l

/-- Embedding of Rust `str::lines`: split at `'\n'`, strip a `'\r'` before each
split point, and do not produce a final empty line for a trailing newline. -/
def rustLines (s : List Char) : List (List Char) :=
  let ps := splitOnChar '\n' s
  if ps.getLast? = some [] then ps.dropLast.map stripCR
  else ps.dropLast.map stripCR ++ [(ps.getLast?).getD []]

/-- Embedding of Rust `str::find(pat)`: index of the first occurrence of `pat`
in the haystack, if any. -/
def findSub (pat : List Char) : List Char → Option Nat
  | [] => if pat.isPrefixOf ([] : List Char) then some 0 else none
  | h :: t =>
    if pat.isPrefixOf (h :: t) then some 0
    else (findSub pat t).map (· + 1)

/-- Embedding of Rust `str::contains(pat)`. -/
def containsSub (pat hay : List Char) : Bool := (findSub pat hay).isSome

/-- Embedding of `HashSet::insert` on a duplicate-free list model of a set. -/
def insertSet (x : List Char) (s : List (List Char)) : List (List Char) :=
  if x ∈ s then s else s ++ [x]

/-- Append `x` unless it is already present. -/
def dedupStep (acc : List (List Char)) (x : List Char) : List (List Char) :=
  if x ∈ acc then acc else acc ++ [x]

/-- Keep the first occurrence of each element, preserving order. -/
def dedupFirst (l : List (List Char)) : List (List Char) :=
  l.foldl dedupStep []

/-! ## The section manager (`hosts.rs`) -/

/-- `SECTION_MARKER` from `hosts.rs`. -/
def sectionMarker : List Char := str "# --+ Make Your Choice +--"

/-- The wrapped block built by `write_wrapped_section`: empty for empty inner
content, otherwise the inner content normalised to end with a newline and
surrounded by the two sentinel lines. -/
def wrappedBlock (inner : List Char) : List Char :=
  if inner = [] then []
  else
    let c := if inner.getLast? = some '\n' then inner else inner ++ ['\n']
    sectionMarker ++ '\n' :: (c ++ sectionMarker ++ ['\n'])

/-- The content transformation of `HostsManager::write_wrapped_section`
(`hosts.rs` lines 40-80): locate the sentinel pair (or the sole sentinel, or
none) and substitute the freshly built wrapped block. -/
def replaceSection (original inner : List Char) : List Char :=
  let w := wrappedBlock inner
  match findSub sectionMarker original with
  | some f =>
    match findSub sectionMarker (original.drop (f + sectionMarker.length)) with
    | some p =>
      original.take f ++ w ++
        original.drop (f + sectionMarker.length + p + sectionMarker.length)
    | none => original.take f ++ w
  | none =>
    let sep : List Char := if original.getLast? = some '\n' then ['\n'] else ['\n', '\n']
    original ++ sep ++ w

/-! ## Occurrence lemmas for `findSub` -/

/-- `pat` occurs nowhere in `hay`. -/
def noOcc (pat hay : List Char) : Prop := ∀ m, ¬ pat <+: hay.drop m

theorem sectionMarker_ne_nil : sectionMarker ≠ [] := by decide

theorem newline_notMem_sectionMarker : '\n' ∉ sectionMarker := by decide

theorem findSub_some (pat : List Char) :
    ∀ (hay : List Char) (n : Nat), findSub pat hay = some n ↔
      pat <+: hay.drop n ∧ ∀ m, m < n → ¬ pat <+: hay.drop m
  | [], n => by
    simp only [findSub, List.drop_nil]
    by_cases hp : pat <+: ([] : List Char)
    · rw [if_pos (List.isPrefixOf_iff_prefix.mpr hp)]
      constructor
      · intro h
        have hn : n = 0 := by injection h with h'; omega
        subst hn
        exact ⟨hp, by omega⟩
      · rintro ⟨-, hall⟩
        have hn : n = 0 := by
          by_contra hne
          exact hall 0 (Nat.pos_of_ne_zero hne) hp
        subst hn; rfl
    · rw [if_neg (fun hb => hp (List.isPrefixOf_iff_prefix.mp hb))]
      constructor
      · intro h; cases h
      · rintro ⟨h, -⟩; exact absurd h hp
  | c :: t, n => by
    simp only [findSub]
    by_cases hp : pat <+: (c :: t)
    · rw [if_pos (List.isPrefixOf_iff_prefix.mpr hp)]
      constructor
      · intro h
        have hn : n = 0 := by injection h with h'; omega
        subst hn
        exact ⟨by simpa using hp, by omega⟩
      · rintro ⟨-, hall⟩
        have hn : n = 0 := by
          by_contra hne
          exact hall 0 (Nat.pos_of_ne_zero hne) (by simpa using hp)
        subst hn; rfl
    · rw [if_neg (fun hb => hp (List.isPrefixOf_iff_prefix.mp hb))]
      constructor
      · intro h
        rcases Option.map_eq_some'.mp h with ⟨k, hk, rfl⟩
        rcases (findSub_some pat t k).mp hk with ⟨h1, h2⟩
        refine ⟨by simpa using h1, ?_⟩
        intro m hm
        cases m with
        | zero => simpa using hp
        | succ m =>
          intro hcon
          exact h2 m (by omega) (by simpa using hcon)
      · rintro ⟨h1, h2⟩
        cases n with
        | zero => exact absurd (by simpa using h1) hp
        | succ n =>
          have hk := (findSub_some pat t n).mpr
            ⟨by simpa using h1, fun m hm hc => h2 (m + 1) (by omega) (by simpa using hc)⟩
          rw [hk]; rfl

theorem findSub_none (pat : List Char) :
    ∀ hay : List Char, findSub pat hay = none ↔ noOcc pat hay
  | [] => by
    simp only [findSub, noOcc, List.drop_nil]
    by_cases hp : pat <+: ([] : List Char)
    · rw [if_pos (List.isPrefixOf_iff_prefix.mpr hp)]
      simp only [reduceCtorEq, false_iff, not_forall]
      exact ⟨0, by simpa using hp⟩
    · rw [if_neg (fun hb => hp (List.isPrefixOf_iff_prefix.mp hb))]
      simp only [true_iff]
      exact fun m => hp
  | c :: t => by
    simp only [findSub, noOcc]
    by_cases hp : pat <+: (c :: t)
    · rw [if_pos (List.isPrefixOf_iff_prefix.mpr hp)]
      simp only [reduceCtorEq, false_iff, not_forall]
      exact ⟨0, by simpa using hp⟩
    · rw [if_neg (fun hb => hp (List.isPrefixOf_iff_prefix.mp hb))]
      rw [Option.map_eq_none', findSub_none pat t]
      constructor
      · intro h m
        cases m with
        | zero => simpa using hp
        | succ m => simpa using h m
      · intro h m
        simpa using h (m + 1)

theorem not_prefix_of_length_lt {pat l : List Char} (h : l.length < pat.length) :
    ¬ pat <+: l :=
  fun hp => absurd hp.length_le (by omega)

theorem prefix_of_left {pat X Y : List Char} (h : pat <+: X ++ Y)
    (hl : pat.length ≤ X.length) : pat <+: X := by
  have h1 := List.prefix_iff_eq_take.mp h
  rw [List.take_append_eq_append_take, Nat.sub_eq_zero_of_le hl, List.take_zero,
    List.append_nil] at h1
  rw [h1]; exact List.take_prefix _ _

theorem exists_mem_of_prefix_span {pat X Y : List Char} (h : pat <+: X ++ Y)
    (hlt : X.length < pat.length) : ∃ c, c ∈ Y ∧ c ∈ pat := by
  have hlen := h.length_le
  rw [List.length_append] at hlen
  have h1 := List.prefix_iff_eq_take.mp h
  rw [List.take_append_eq_append_take, List.take_of_length_le (by omega)] at h1
  have hk1 : 1 ≤ pat.length - X.length := by omega
  have hkY : Y.take (pat.length - X.length) ≠ [] := by
    intro hc
    have hc2 := congrArg List.length hc
    rw [List.length_take] at hc2
    simp only [List.length_nil] at hc2
    omega
  rcases List.exists_cons_of_ne_nil hkY with ⟨y, ys, hy⟩
  refine ⟨y, ?_, ?_⟩
  · exact List.mem_of_mem_take (hy ▸ List.mem_cons_self y ys)
  · rw [h1, hy]
    exact List.mem_append_right _ (List.mem_cons_self _ _)

theorem head_mem_of_prefix {pat l : List Char} (h : pat <+: l) (hne : pat ≠ []) :
    ∃ c, c ∈ pat ∧ c ∈ l := by
  rcases List.exists_cons_of_ne_nil hne with ⟨p, ps, rfl⟩
  rcases h with ⟨t, ht⟩
  refine ⟨p, List.mem_cons_self _ _, ?_⟩
  rw [← ht]
  exact List.mem_append_left _ (List.mem_cons_self _ _)

theorem noOcc_append_of_notMem {pat A B : List Char} (hpat : pat ≠ [])
    (hA : noOcc pat A) (hB : ∀ c ∈ B, c ∉ pat) : noOcc pat (A ++ B) := by
  intro m hm
  rw [List.drop_append_eq_append_drop] at hm
  by_cases hmA : m < A.length
  · rw [Nat.sub_eq_zero_of_le (le_of_lt hmA), List.drop_zero] at hm
    by_cases hl : pat.length ≤ (A.drop m).length
    · exact hA m (prefix_of_left hm hl)
    · rcases exists_mem_of_prefix_span hm (by omega) with ⟨c, hcB, hcp⟩
      exact hB c hcB hcp
  · rw [List.drop_eq_nil_of_le (by omega), List.nil_append] at hm
    rcases head_mem_of_prefix hm hpat with ⟨c, hcp, hcB⟩
    exact hB c (List.mem_of_mem_drop hcB) hcp

theorem noOcc_prepend_of_notMem {pat A B : List Char} (_hpat : pat ≠ [])
    (hB : ∀ c ∈ B, c ∉ pat) (hA : noOcc pat A) : noOcc pat (B ++ A) := by
  intro m hm
  rw [List.drop_append_eq_append_drop] at hm
  by_cases hmB : m < B.length
  · have hBd : B.drop m ≠ [] := by
      intro hc
      have hc2 := congrArg List.length hc
      rw [List.length_drop] at hc2
      simp only [List.length_nil] at hc2
      omega
    rcases List.exists_cons_of_ne_nil hBd with ⟨b, bs, hb⟩
    rcases List.exists_cons_of_ne_nil _hpat with ⟨p, ps, hp⟩
    rcases hm with ⟨t, ht⟩
    rw [hb, hp] at ht
    have hpb : p = b := by
      have := congrArg List.head? ht
      simpa using this
    have hbB : b ∈ B := List.mem_of_mem_drop (hb ▸ List.mem_cons_self b bs)
    exact hB b hbB (by rw [hp, ← hpb]; exact List.mem_cons_self _ _)
  · rw [List.drop_eq_nil_of_le (by omega), List.nil_append] at hm
    exact hA _ hm

/-- `pat` has no non-trivial border (no proper prefix that is also a suffix);
this rules out overlapping occurrences of the sentinel. -/
def borderFree (pat : List Char) : Prop :=
  ∀ d, d < pat.length → 0 < d → pat.drop d ≠ pat.take (pat.length - d)

theorem sectionMarker_borderFree : borderFree sectionMarker := by
  unfold borderFree; decide

theorem findSub_append_block {pat P Q : List Char} (_hpat : pat ≠ [])
    (hbf : borderFree pat) (hP : noOcc pat P) :
    findSub pat (P ++ pat ++ Q) = some P.length := by
  rw [findSub_some]
  constructor
  · rw [List.append_assoc, List.drop_left]
    exact List.prefix_append _ _
  · intro m hm hpre
    rw [List.append_assoc, List.drop_append_eq_append_drop,
      Nat.sub_eq_zero_of_le (le_of_lt hm), List.drop_zero] at hpre
    by_cases hl : pat.length ≤ (P.drop m).length
    · exact hP m (prefix_of_left hpre hl)
    · have hdl : (P.drop m).length = P.length - m := List.length_drop _ _
      have h1 := List.prefix_iff_eq_take.mp hpre
      rw [List.take_append_eq_append_take, List.take_of_length_le (by omega),
        List.take_append_eq_append_take,
        Nat.sub_eq_zero_of_le (by omega : pat.length - (P.drop m).length ≤ pat.length),
        List.take_zero, List.append_nil] at h1
      have h2 : pat.drop (P.drop m).length = pat.take (pat.length - (P.drop m).length) := by
        conv_lhs => rw [h1]
        rw [List.drop_left]
      exact hbf (P.drop m).length (by omega) (by omega) h2

theorem noOcc_of_findSub_none {pat D : List Char} (h : findSub pat D = none) :
    noOcc pat D := (findSub_none pat D).mp h

theorem noOcc_take_of_findSub {D : List Char} {f : Nat}
    (h : findSub sectionMarker D = some f) : noOcc sectionMarker (D.take f) := by
  rcases (findSub_some _ _ _).mp h with ⟨-, hall⟩
  intro m hp
  by_cases hmf : m < f
  · refine hall m hmf ?_
    refine hp.trans ?_
    rw [List.drop_take]
    exact List.take_prefix _ _
  · rw [List.drop_eq_nil_of_le (by rw [List.length_take]; omega)] at hp
    have hnil := List.prefix_nil.mp hp
    exact sectionMarker_ne_nil hnil

/-! ## Behaviour of `replaceSection` on a document that already carries a
freshly written block -/

/-- The inner content normalised to end with a newline, as built by
`write_wrapped_section` for non-empty content. -/
def normChunk (inner : List Char) : List Char :=
  if inner.getLast? = some '\n' then inner else inner ++ ['\n']

theorem wrappedBlock_eq {inner : List Char} (h : inner ≠ []) :
    wrappedBlock inner =
      sectionMarker ++ '\n' :: (normChunk inner ++ sectionMarker ++ ['\n']) := by
  rw [wrappedBlock, if_neg h, normChunk]

theorem noOcc_normChunk {X : List Char} (h : noOcc sectionMarker X) :
    noOcc sectionMarker (normChunk X) := by
  unfold normChunk
  split
  · exact h
  · refine noOcc_append_of_notMem sectionMarker_ne_nil h ?_
    intro c hc
    have : c = '\n' := by simpa using hc
    subst this
    exact newline_notMem_sectionMarker

theorem noOcc_newline_cons {X : List Char} (h : noOcc sectionMarker X) :
    noOcc sectionMarker ('\n' :: X) := by
  have := noOcc_prepend_of_notMem (B := ['\n']) sectionMarker_ne_nil
    (fun c hc => by
      have : c = '\n' := by simpa using hc
      subst this
      exact newline_notMem_sectionMarker) h
  simpa using this

/-- Unfolding of `replaceSection` when both sentinel searches succeed. -/
theorem replaceSection_two_marks {orig inner : List Char} {f p : Nat}
    (h1 : findSub sectionMarker orig = some f)
    (h2 : findSub sectionMarker (orig.drop (f + sectionMarker.length)) = some p) :
    replaceSection orig inner =
      orig.take f ++ wrappedBlock inner ++
        orig.drop (f + sectionMarker.length + p + sectionMarker.length) := by
  simp only [replaceSection, h1, h2]

/-- Unfolding of `replaceSection` in the corrupt single-sentinel state. -/
theorem replaceSection_one_mark {orig inner : List Char} {f : Nat}
    (h1 : findSub sectionMarker orig = some f)
    (h2 : findSub sectionMarker (orig.drop (f + sectionMarker.length)) = none) :
    replaceSection orig inner = orig.take f ++ wrappedBlock inner := by
  simp only [replaceSection, h1, h2]

/-- Unfolding of `replaceSection` when no sentinel exists: append after a
separator. -/
theorem replaceSection_no_mark {orig inner : List Char}
    (h : findSub sectionMarker orig = none) :
    replaceSection orig inner =
      orig ++ (if orig.getLast? = some '\n' then ['\n'] else ['\n', '\n']) ++
        wrappedBlock inner := by
  simp only [replaceSection, h]

/-- Key computation: applying the section replacement with any inner content
`Y` to a document of the form `P ++ wrappedBlock X ++ S` (where the sentinel
occurs nowhere in `P` or in the normalised `X`) locates exactly the sentinel
pair of the block and yields `P ++ wrappedBlock Y ++ '\n' :: S`: the newline
that followed the closing sentinel of the old block survives the replacement. -/
theorem replaceSection_block (P S X Y : List Char) (hX : X ≠ [])
    (hP : noOcc sectionMarker P) (hC : noOcc sectionMarker (normChunk X)) :
    replaceSection (P ++ wrappedBlock X ++ S) Y =
      P ++ wrappedBlock Y ++ '\n' :: S := by
  have hW := wrappedBlock_eq hX
  have hshape : P ++ wrappedBlock X ++ S =
      (P ++ sectionMarker) ++
        (('\n' :: normChunk X) ++ sectionMarker ++ ('\n' :: S)) := by
    rw [hW]; simp [List.append_assoc]
  have h1 : findSub sectionMarker (P ++ wrappedBlock X ++ S) = some P.length := by
    rw [hshape]
    exact findSub_append_block sectionMarker_ne_nil sectionMarker_borderFree hP
  have hdrop1 : (P ++ wrappedBlock X ++ S).drop (P.length + sectionMarker.length) =
      ('\n' :: normChunk X) ++ sectionMarker ++ ('\n' :: S) := by
    rw [hshape]
    have : P.length + sectionMarker.length = (P ++ sectionMarker).length := by
      rw [List.length_append]
    rw [this, List.drop_left]
  have h2 : findSub sectionMarker
      ((P ++ wrappedBlock X ++ S).drop (P.length + sectionMarker.length)) =
      some ('\n' :: normChunk X).length := by
    rw [hdrop1]
    exact findSub_append_block sectionMarker_ne_nil sectionMarker_borderFree
      (noOcc_newline_cons hC)
  have htake : (P ++ wrappedBlock X ++ S).take P.length = P := by
    rw [List.append_assoc]
    exact List.take_left _ _
  have hdrop2 : (P ++ wrappedBlock X ++ S).drop
      (P.length + sectionMarker.length + ('\n' :: normChunk X).length +
        sectionMarker.length) = '\n' :: S := by
    have hshape2 : P ++ wrappedBlock X ++ S =
        ((P ++ sectionMarker) ++ ('\n' :: normChunk X) ++ sectionMarker) ++
          ('\n' :: S) := by
      rw [hshape]; simp [List.append_assoc]
    have hlen : P.length + sectionMarker.length + ('\n' :: normChunk X).length +
        sectionMarker.length =
        ((P ++ sectionMarker) ++ ('\n' :: normChunk X) ++ sectionMarker).length := by
      simp [List.length_append]
      omega
    rw [hshape2, hlen, List.drop_left]
  rw [replaceSection_two_marks h1 h2, htake, hdrop2]

theorem sep_chars (D : List Char) :
    ∀ c ∈ (if D.getLast? = some '\n' then (['\n'] : List Char) else ['\n', '\n']),
      c ∉ sectionMarker := by
  intro c hc
  have hcn : c = '\n' := by split at hc <;> simpa using hc
  subst hcn
  exact newline_notMem_sectionMarker

theorem wrappedBlock_nil : wrappedBlock [] = [] := by simp [wrappedBlock]

/-- The content of the document before the owned region, as located by
`write_wrapped_section` (for a sentinel-free document this includes the
separator the first application appends). -/
def beforeOut (D : List Char) : List Char :=
  match findSub sectionMarker D with
  | none => D ++ (if D.getLast? = some '\n' then ['\n'] else ['\n', '\n'])
  | some f => D.take f

/-- The content of the document after the owned region, as located by
`write_wrapped_section`. -/
def afterOut (D : List Char) : List Char :=
  match findSub sectionMarker D with
  | none => []
  | some f =>
    match findSub sectionMarker (D.drop (f + sectionMarker.length)) with
    | none => []
    | some p => D.drop (f + sectionMarker.length + p + sectionMarker.length)

/-- C1 (amended): the section replacement of `write_wrapped_section` is not
idempotent.  For every document `D` and every non-empty, sentinel-free inner
content `X`, the first application produces `A ++ wrappedBlock X ++ B` for some
outside parts `A`, `B`, and the second application with the same `X` yields
`A ++ wrappedBlock X ++ '\n' :: B`: everything is preserved except that exactly
one extra newline is inserted immediately after the closing sentinel line, so
each reapplication grows the file by one blank line. -/
theorem replaceSection_twice_inserts_newline (D X : List Char) (hne : X ≠ [])
    (hfree : findSub sectionMarker X = none) :
    ∃ A B, replaceSection D X = A ++ wrappedBlock X ++ B ∧
      replaceSection (replaceSection D X) X = A ++ wrappedBlock X ++ '\n' :: B := by
  have hXocc := noOcc_of_findSub_none hfree
  have hC := noOcc_normChunk hXocc
  rcases h1 : findSub sectionMarker D with _ | f
  · refine ⟨D ++ (if D.getLast? = some '\n' then ['\n'] else ['\n', '\n']), [], ?_, ?_⟩
    · rw [replaceSection_no_mark h1]
      simp
    · have hP : noOcc sectionMarker
          (D ++ (if D.getLast? = some '\n' then ['\n'] else ['\n', '\n'])) :=
        noOcc_append_of_notMem sectionMarker_ne_nil (noOcc_of_findSub_none h1)
          (sep_chars D)
      have hre : replaceSection D X =
          (D ++ (if D.getLast? = some '\n' then ['\n'] else ['\n', '\n'])) ++
            wrappedBlock X ++ [] := by
        rw [replaceSection_no_mark h1]
        simp
      rw [hre, replaceSection_block _ _ _ _ hne hP hC]
  · rcases h2 : findSub sectionMarker (D.drop (f + sectionMarker.length)) with _ | p
    · refine ⟨D.take f, [], ?_, ?_⟩
      · rw [replaceSection_one_mark h1 h2]
        simp
      · have hP := noOcc_take_of_findSub h1
        have hre : replaceSection D X = D.take f ++ wrappedBlock X ++ [] := by
          rw [replaceSection_one_mark h1 h2]
          simp
        rw [hre, replaceSection_block _ _ _ _ hne hP hC]
    · refine ⟨D.take f,
        D.drop (f + sectionMarker.length + p + sectionMarker.length), ?_, ?_⟩
      · exact replaceSection_two_marks h1 h2
      · have hP := noOcc_take_of_findSub h1
        rw [replaceSection_two_marks h1 h2, replaceSection_block _ _ _ _ hne hP hC]

/-- C1 counterexample: the idempotence claimed by the specification fails at
the concrete document `""` and inner content `"a"`: the second application is
not byte-identical to the first (it has gained one newline). -/
theorem replaceSection_not_idempotent_cex :
    ¬ (replaceSection (replaceSection [] (str "a")) (str "a") =
        replaceSection [] (str "a")) := by decide

/-- Witness for C1's amended theorem at `D = ""`, `X = "x"`. -/
theorem replaceSection_twice_inserts_newline_witness :
    ∃ A B, replaceSection [] (str "x") = A ++ wrappedBlock (str "x") ++ B ∧
      replaceSection (replaceSection [] (str "x")) (str "x") =
        A ++ wrappedBlock (str "x") ++ '\n' :: B :=
  replaceSection_twice_inserts_newline [] (str "x") (by decide) (by decide)

/-- C2 (amended): applying the replacement with non-empty sentinel-free `X`
and then with the empty string removes the entire wrapped block including both
sentinel lines, and preserves all content outside the block; but the result is
not byte-identical to the original minus the block: the newline that followed
the closing sentinel remains at the removal point, and for a sentinel-free
original the separator appended by the first application also remains. -/
theorem replaceSection_apply_then_revert (D X : List Char) (hne : X ≠ [])
    (hfree : findSub sectionMarker X = none) :
    replaceSection (replaceSection D X) [] = beforeOut D ++ '\n' :: afterOut D := by
  have hXocc := noOcc_of_findSub_none hfree
  have hC := noOcc_normChunk hXocc
  rcases h1 : findSub sectionMarker D with _ | f
  · have hP : noOcc sectionMarker
        (D ++ (if D.getLast? = some '\n' then ['\n'] else ['\n', '\n'])) :=
      noOcc_append_of_notMem sectionMarker_ne_nil (noOcc_of_findSub_none h1)
        (sep_chars D)
    have hre : replaceSection D X =
        (D ++ (if D.getLast? = some '\n' then ['\n'] else ['\n', '\n'])) ++
          wrappedBlock X ++ [] := by
      rw [replaceSection_no_mark h1]
      simp
    rw [hre, replaceSection_block _ _ _ _ hne hP hC]
    simp only [beforeOut, afterOut, h1, wrappedBlock_nil, List.append_nil]
  · rcases h2 : findSub sectionMarker (D.drop (f + sectionMarker.length)) with _ | p
    · have hP := noOcc_take_of_findSub h1
      have hre : replaceSection D X = D.take f ++ wrappedBlock X ++ [] := by
        rw [replaceSection_one_mark h1 h2]
        simp
      rw [hre, replaceSection_block _ _ _ _ hne hP hC]
      simp only [beforeOut, afterOut, h1, h2, wrappedBlock_nil, List.append_nil]
    · have hP := noOcc_take_of_findSub h1
      rw [replaceSection_two_marks h1 h2, replaceSection_block _ _ _ _ hne hP hC]
      simp only [beforeOut, afterOut, h1, h2, wrappedBlock_nil, List.append_nil]

/-- C2 counterexample: the revert law fails byte-identity at the concrete
document `"h\n"` (which contains no sentinel block, so the claimed result is
`"h\n"` itself) and inner content `"a"`. -/
theorem replaceSection_revert_not_identity_cex :
    ¬ (replaceSection (replaceSection (str "h\n") (str "a")) [] = str "h\n") := by
  decide

/-- Witness for C2's amended theorem at `D = "q"`, `X = "z"`. -/
theorem replaceSection_apply_then_revert_witness :
    replaceSection (replaceSection (str "q") (str "z")) [] =
      beforeOut (str "q") ++ '\n' :: afterOut (str "q") :=
  replaceSection_apply_then_revert (str "q") (str "z") (by decide) (by decide)

/-! ## The region catalog (`region.rs`) and the Gatekeep policy (`hosts.rs`) -/

/-- `RegionInfo` from `region.rs`. -/
structure RegionInfo where
  hosts : List (List Char)
  stable : Bool
deriving DecidableEq

/-- `BlockMode` from `region.rs`. -/
inductive BlockMode where
  | Both
  | OnlyPing
  | OnlyService
deriving DecidableEq

/-- `get_group_name` from `region.rs` (lines 295-307). -/
def getGroupName (region : List Char) : List Char :=
  if (str "Europe").isPrefixOf region then str "Europe"
  else if (str "US").isPrefixOf region || (str "Canada").isPrefixOf region ||
      (str "South America").isPrefixOf region then str "Americas"
  else if containsSub (str "Sydney") region then str "Oceania"
  else if containsSub (str "China") region then str "China"
  else str "Asia"

/-- `HashMap::get` on the catalog, modelled on an association list. -/
def lookupRegion (regions : List (List Char × RegionInfo)) (k : List Char) :
    Option RegionInfo :=
  (regions.find? (fun p => p.1 == k)).map (fun p => p.2)

/-- `apply_gatekeep`'s check whether any selected region is stable
(`hosts.rs` lines 129-130). -/
def anyStableSelected (regions : List (List Char × RegionInfo))
    (selected : List (List Char)) : Bool :=
  selected.any (fun r => ((lookupRegion regions r).map (fun i => i.stable)).getD false)

/-- `apply_gatekeep`'s search for a stable region in the same group
(`hosts.rs` lines 140-141). -/
def stableAlternative (regions : List (List Char × RegionInfo))
    (group : List Char) : Option (List Char × RegionInfo) :=
  regions.find? (fun p => getGroupName p.1 == group && p.2.stable)

/-- One iteration of `apply_gatekeep`'s merge loop (`hosts.rs` lines 135-147). -/
def mergeStep (regions : List (List Char × RegionInfo))
    (acc : List (List Char)) (r : List Char) : List (List Char) :=
  match lookupRegion regions r with
  | some info =>
    if !info.stable then
      match stableAlternative regions (getGroupName r) with
      | some alt => insertSet alt.1 acc
      | none => acc
    else acc
  | none => acc

/-- The allow-set computed by `apply_gatekeep` (`hosts.rs` lines 128-148):
the selection, merged with one stable alternative per selected unstable region
when the merge flag is set and no selected region is stable. -/
def computeAllowed (regions : List (List Char × RegionInfo))
    (selected : List (List Char)) (merge : Bool) : List (List Char) :=
  if merge && !anyStableSelected regions selected then
    selected.foldl (mergeStep regions) selected
  else selected

/-- `apply_gatekeep`'s ping classification (`hosts.rs` line 160):
`host.to_lowercase().contains("ping")`. -/
def isPingHost (host : List Char) : Bool :=
  containsSub (str "ping") (toLowerL host)

/-- The block-scope inclusion decision of `apply_gatekeep`
(`hosts.rs` lines 161-165). -/
def includeHost (mode : BlockMode) (host : List Char) : Bool :=
  match mode with
  | .Both => true
  | .OnlyPing => isPingHost host
  | .OnlyService => !isPingHost host

/-- Rust's `{:9}` format: left-align and pad with spaces to width 9. -/
def padTo9 (p : List Char) : List Char := p ++ List.replicate (9 - p.length) ' '

/-- One host line of the Gatekeep section (`hosts.rs` lines 167-170). -/
def hostLineG (allow : Bool) (mode : BlockMode) (host : List Char) : List Char :=
  if includeHost mode host then
    padTo9 (if allow then str "#" else str "0.0.0.0") ++ ' ' :: (host ++ ['\n'])
  else []

/-- The lines of one catalog region in the Gatekeep section
(`hosts.rs` lines 157-173). -/
def regionLinesG (mode : BlockMode) (allowed : List (List Char))
    (p : List Char × RegionInfo) : List Char :=
  (p.2.hosts.foldl (fun acc h => acc ++ hostLineG (allowed.contains p.1) mode h) []) ++
    ['\n']

/-- The lines of one always-blocked region (`hosts.rs` lines 175-180). -/
def blockedLinesG (p : List Char × RegionInfo) : List Char :=
  (p.2.hosts.foldl
    (fun acc h => acc ++ (padTo9 (str "0.0.0.0") ++ ' ' :: (h ++ ['\n']))) []) ++
    ['\n']

/-- The full inner content built by `apply_gatekeep` (`hosts.rs` lines 150-180). -/
def gatekeepContent (discord : List Char) (regions blockedR : List (List Char × RegionInfo))
    (allowed : List (List Char)) (mode : BlockMode) : List Char :=
  str "# Edited by Make Your Choice (DbD Server Selector)\n" ++
  str "# Unselected servers are blocked (Gatekeep Mode); selected servers are commented out.\n" ++
  (str "# Need help? Discord: " ++ discord ++ ['\n']) ++
  ['\n'] ++
  regions.foldl (fun acc p => acc ++ regionLinesG mode allowed p) [] ++
  blockedR.foldl (fun acc p => acc ++ blockedLinesG p) []

/-- The validation error message of `apply_gatekeep` (`hosts.rs` line 125). -/
def valMsg : List Char := str "Please select at least one server to allow."

/-- `HostsManager::apply_gatekeep` (`hosts.rs` lines 116-184) as a transformer
of the hosts-file content: on an empty selection it bails out with the
validation error before computing or writing anything, leaving the file as it
was; otherwise it writes the wrapped Gatekeep section. -/
def applyGatekeep (discord : List Char) (regions blockedR : List (List Char × RegionInfo))
    (selected : List (List Char)) (mode : BlockMode) (merge : Bool)
    (file : List Char) : Except (List Char) Unit × List Char :=
  if selected = [] then (Except.error valMsg, file)
  else
    let allowed := computeAllowed regions selected merge
    (Except.ok (), replaceSection file (gatekeepContent discord regions blockedR allowed mode))

theorem occurs_iff_exists (pat hay : List Char) :
    (∃ p s, hay = p ++ pat ++ s) ↔ ∃ m, pat <+: hay.drop m := by
  constructor
  · rintro ⟨p, s, rfl⟩
    refine ⟨p.length, ?_⟩
    rw [List.append_assoc, List.drop_left]
    exact List.prefix_append _ _
  · rintro ⟨m, t, ht⟩
    refine ⟨hay.take m, t, ?_⟩
    rw [List.append_assoc, ht, List.take_append_drop]

theorem containsSub_iff_occurs (pat hay : List Char) :
    containsSub pat hay = true ↔ ∃ p s, hay = p ++ pat ++ s := by
  rw [occurs_iff_exists]
  constructor
  · intro hs
    rcases Option.isSome_iff_exists.mp hs with ⟨n, hn⟩
    exact ⟨n, ((findSub_some _ _ _).mp hn).1⟩
  · rintro ⟨m, hm⟩
    cases h : findSub pat hay with
    | none => exact absurd hm ((findSub_none _ _).mp h m)
    | some n => simp [containsSub, h]

theorem mem_insertSet {x y : List Char} {s : List (List Char)} :
    y ∈ insertSet x s ↔ y = x ∨ y ∈ s := by
  unfold insertSet
  split
  · rename_i hx
    constructor
    · exact Or.inr
    · rintro (rfl | hy)
      · exact hx
      · exact hy
  · simp [or_comm]

theorem mergeStep_mono {regions : List (List Char × RegionInfo)}
    {acc : List (List Char)} {r a : List Char} (h : a ∈ acc) :
    a ∈ mergeStep regions acc r := by
  unfold mergeStep
  split
  · split
    · split
      · exact mem_insertSet.mpr (Or.inr h)
      · exact h
    · exact h
  · exact h

theorem foldl_mergeStep_mono {regions : List (List Char × RegionInfo)}
    {a : List Char} :
    ∀ (l : List (List Char)) (acc : List (List Char)), a ∈ acc →
      a ∈ l.foldl (mergeStep regions) acc
  | [], _, h => h
  | _ :: t, _, h => foldl_mergeStep_mono t _ (mergeStep_mono h)

theorem foldl_mergeStep_reach {regions : List (List Char × RegionInfo)}
    {a r : List Char} (hstep : ∀ acc, a ∈ mergeStep regions acc r) :
    ∀ (l : List (List Char)) (acc : List (List Char)), r ∈ l →
      a ∈ l.foldl (mergeStep regions) acc
  | c :: t, acc, hr => by
    rcases List.mem_cons.mp hr with rfl | hrt
    · exact foldl_mergeStep_mono t _ (hstep acc)
    · exact foldl_mergeStep_reach hstep t _ hrt

/-- C5 counterexample: the specification's claim "a host matches the ping
scope iff its name contains the substring `ping` case-sensitively" is false at
the host `PING.example`: it matches the ping scope although `ping` does not
occur in it case-sensitively. -/
theorem gatekeep_ping_scope_cex :
    ¬ (includeHost BlockMode.OnlyPing (str "PING.example") = true ↔
        ∃ p s, str "PING.example" = p ++ str "ping" ++ s) := by
  intro h
  have h2 : ∃ p s, str "PING.example" = p ++ str "ping" ++ s := h.mp (by decide)
  have h3 : containsSub (str "ping") (str "PING.example") = true :=
    (containsSub_iff_occurs _ _).mpr h2
  exact absurd h3 (by decide)

/-- C5 (amended): in `apply_gatekeep`, a host matches the "ping" block scope
iff its lowercased name contains the substring `ping` — the comparison is
case-insensitive, so `PING.example` does match. -/
theorem gatekeep_ping_scope_case_insensitive :
    (∀ host : List Char, includeHost BlockMode.OnlyPing host = true ↔
      ∃ p s, toLowerL host = p ++ str "ping" ++ s) ∧
    includeHost BlockMode.OnlyPing (str "PING.example") = true := by
  constructor
  · intro host
    show isPingHost host = true ↔ _
    unfold isPingHost
    exact containsSub_iff_occurs _ _
  · decide

/-- C6: with the merge flag set, a non-empty selection none of whose regions
is stable, and a catalog that offers a stable region in the group of a
selected catalog region, the computed allow-set contains a stable catalog
region of that group. -/
theorem gatekeep_stable_fallback
    (regions : List (List Char × RegionInfo)) (selected : List (List Char))
    (_hsel : selected ≠ [])
    (hns : anyStableSelected regions selected = false) :
    ∀ r ∈ selected, ∀ i, lookupRegion regions r = some i →
      (∃ q ∈ regions, getGroupName q.1 = getGroupName r ∧ q.2.stable = true) →
      ∃ a ∈ computeAllowed regions selected true,
        ∃ q ∈ regions, q.1 = a ∧ q.2.stable = true ∧
          getGroupName a = getGroupName r := by
  intro r hr i hi hex
  have hca : computeAllowed regions selected true =
      selected.foldl (mergeStep regions) selected := by
    rw [computeAllowed, hns]
    rfl
  have histab : i.stable = false := by
    have hnr := List.any_eq_false.mp hns r hr
    simp only [hi, Option.map_some', Option.getD_some] at hnr
    simpa using hnr
  have halt : ∃ alt, stableAlternative regions (getGroupName r) = some alt := by
    cases hq : stableAlternative regions (getGroupName r) with
    | some alt => exact ⟨alt, rfl⟩
    | none =>
      exfalso
      rcases hex with ⟨q, hqmem, hqgr, hqstab⟩
      have := List.find?_eq_none.mp hq q hqmem
      simp only [Bool.and_eq_true, beq_iff_eq] at this
      exact this ⟨hqgr, hqstab⟩
  rcases halt with ⟨alt, halt⟩
  have haltpred := List.find?_some halt
  simp only [Bool.and_eq_true, beq_iff_eq] at haltpred
  have haltmem : alt ∈ regions := List.mem_of_find?_eq_some halt
  refine ⟨alt.1, ?_, alt, haltmem, rfl, haltpred.2, haltpred.1⟩
  rw [hca]
  refine foldl_mergeStep_reach ?_ selected selected hr
  intro acc
  simp only [mergeStep, hi, histab, halt, Bool.not_false, if_true]
  exact mem_insertSet.mpr (Or.inl rfl)

/-- Witness for C6 at a two-region catalog where the selected London region is
unstable and Ireland is the stable alternative in the Europe group. -/
theorem gatekeep_stable_fallback_witness :
    ∃ a ∈ computeAllowed
        [(str "Europe (London)", ⟨[], false⟩), (str "Europe (Ireland)", ⟨[], true⟩)]
        [str "Europe (London)"] true,
      ∃ q ∈ [((str "Europe (London)" : List Char),
              ({ hosts := [], stable := false } : RegionInfo)),
             (str "Europe (Ireland)", { hosts := [], stable := true })],
        q.1 = a ∧ q.2.stable = true ∧ getGroupName a = getGroupName (str "Europe (London)") :=
  gatekeep_stable_fallback
    [(str "Europe (London)", ⟨[], false⟩), (str "Europe (Ireland)", ⟨[], true⟩)]
    [str "Europe (London)"] (by decide) (by decide)
    (str "Europe (London)") (by decide) ⟨[], false⟩ (by decide)
    ⟨(str "Europe (Ireland)", ⟨[], true⟩), by decide, by decide, by decide⟩

/-- C7: `apply_gatekeep` fails with the validation error on an empty selection
and leaves the hosts-file content untouched (the error is raised before any
content is computed or written); on a non-empty selection no validation error
is raised and the wrapped Gatekeep section is written. -/
theorem applyGatekeep_validation (discord : List Char)
    (regions blockedR : List (List Char × RegionInfo))
    (selected : List (List Char)) (mode : BlockMode) (merge : Bool)
    (file : List Char) :
    (selected = [] →
      applyGatekeep discord regions blockedR selected mode merge file =
        (Except.error valMsg, file)) ∧
    (selected ≠ [] →
      applyGatekeep discord regions blockedR selected mode merge file =
        (Except.ok (), replaceSection file
          (gatekeepContent discord regions blockedR
            (computeAllowed regions selected merge) mode))) := by
  constructor <;> intro h <;> simp [applyGatekeep, h]

/-- Witness for C7: both arms at concrete inputs. -/
theorem applyGatekeep_validation_witness :
    applyGatekeep [] [] [] [] BlockMode.Both false (str "x") =
      (Except.error valMsg, str "x") ∧
    applyGatekeep [] [] [] [str "R"] BlockMode.Both false (str "x") =
      (Except.ok (), replaceSection (str "x")
        (gatekeepContent [] [] [] (computeAllowed [] [str "R"] false) BlockMode.Both)) :=
  ⟨(applyGatekeep_validation [] [] [] [] BlockMode.Both false (str "x")).1 rfl,
   (applyGatekeep_validation [] [] [] [str "R"] BlockMode.Both false (str "x")).2
     (by decide)⟩

/-! ## `get_blocked_hostnames` and `detect_conflicting_entries` (`hosts.rs`) -/

/-- The inner content between the first two sentinel occurrences, when both
exist (`hosts.rs` lines 86-97). -/
def locateInner (original : List Char) : Option (List Char) :=
  match findSub sectionMarker original with
  | some f =>
    match findSub sectionMarker (original.drop (f + sectionMarker.length)) with
    | some p => some ((original.drop (f + sectionMarker.length)).take p)
    | none => none
  | none => none

/-- Processing of one line of the managed section by `get_blocked_hostnames`
(`hosts.rs` lines 99-111): skip blank and comment lines, require at least two
whitespace tokens with leading token `0.0.0.0`, and insert every following
token lowercased. -/
def collectBlockedLine (acc : List (List Char)) (rawLine : List Char) :
    List (List Char) :=
  let line := trimL rawLine
  if line = [] ∨ line.head? = some '#' then acc
  else
    let parts := splitWs line
    if parts.length < 2 then acc
    else if ¬ (parts.getD 0 [] = str "0.0.0.0") then acc
    else (parts.drop 1).foldl (fun s h => insertSet (toLowerL h) s) acc

/-- `HostsManager::get_blocked_hostnames` (`hosts.rs` lines 82-114), returning
the set of blocked hostnames as a duplicate-free list. -/
def getBlockedHostnames (original : List Char) : List (List Char) :=
  match locateInner original with
  | some inner => (rustLines inner).foldl collectBlockedLine []
  | none => []

/-- The condition, stated after the claim's words, under which a hostname `h`
is contributed by a managed-section line: the line is non-empty after
trimming, is not a comment, its first whitespace token is exactly `0.0.0.0`,
and `h` is the lowercased form of one of the tokens after the leading one. -/
def specBlockedToken (line h : List Char) : Prop :=
  trimL line ≠ [] ∧ (trimL line).head? ≠ some '#' ∧
  (splitWs (trimL line)).getD 0 [] = str "0.0.0.0" ∧
  h ∈ ((splitWs (trimL line)).drop 1).map toLowerL

theorem mem_foldl_insertLower {h : List Char} :
    ∀ (l : List (List Char)) (acc : List (List Char)),
      h ∈ l.foldl (fun s x => insertSet (toLowerL x) s) acc ↔
        h ∈ acc ∨ ∃ x ∈ l, h = toLowerL x
  | [], acc => by simp
  | x :: t, acc => by
    rw [List.foldl_cons, mem_foldl_insertLower t]
    rw [mem_insertSet]
    constructor
    · rintro ((rfl | hacc) | ⟨y, hy, rfl⟩)
      · exact Or.inr ⟨x, List.mem_cons_self _ _, rfl⟩
      · exact Or.inl hacc
      · exact Or.inr ⟨y, List.mem_cons_of_mem _ hy, rfl⟩
    · rintro (hacc | ⟨y, hy, rfl⟩)
      · exact Or.inl (Or.inr hacc)
      · rcases List.mem_cons.mp hy with rfl | hyt
        · exact Or.inl (Or.inl rfl)
        · exact Or.inr ⟨y, hyt, rfl⟩

theorem mem_collectBlockedLine {h : List Char} {acc : List (List Char)}
    {line : List Char} :
    h ∈ collectBlockedLine acc line ↔ h ∈ acc ∨ specBlockedToken line h := by
  unfold collectBlockedLine specBlockedToken
  by_cases h1 : trimL line = [] ∨ (trimL line).head? = some '#'
  · rw [if_pos h1]
    rcases h1 with h1 | h1 <;> simp [h1]
  · rw [if_neg h1]
    push_neg at h1
    by_cases h2 : (splitWs (trimL line)).length < 2
    · rw [if_pos h2]
      have hdrop : (splitWs (trimL line)).drop 1 = [] := by
        apply List.drop_eq_nil_of_le
        omega
      simp [hdrop, h1.1, h1.2]
    · rw [if_neg h2]
      by_cases h3 : (splitWs (trimL line)).getD 0 [] = str "0.0.0.0"
      · rw [if_neg (by simpa using h3)]
        rw [mem_foldl_insertLower]
        simp only [h1.1, h1.2, h3, ne_eq, not_false_eq_true, true_and, List.mem_map]
        constructor
        · rintro (hacc | ⟨x, hx, rfl⟩)
          · exact Or.inl hacc
          · exact Or.inr ⟨x, hx, rfl⟩
        · rintro (hacc | ⟨x, hx, rfl⟩)
          · exact Or.inl hacc
          · exact Or.inr ⟨x, hx, rfl⟩
      · rw [if_pos (by simpa using h3)]
        constructor
        · exact Or.inl
        · rintro (hacc | ⟨-, -, h3', -⟩)
          · exact hacc
          · exact absurd h3' h3

theorem mem_foldl_collectBlockedLine {h : List Char} :
    ∀ (lines : List (List Char)) (acc : List (List Char)),
      h ∈ lines.foldl collectBlockedLine acc ↔
        h ∈ acc ∨ ∃ line ∈ lines, specBlockedToken line h
  | [], acc => by simp
  | line :: t, acc => by
    rw [List.foldl_cons, mem_foldl_collectBlockedLine t, mem_collectBlockedLine]
    constructor
    · rintro ((hacc | hline) | ⟨l, hl, hspec⟩)
      · exact Or.inl hacc
      · exact Or.inr ⟨line, List.mem_cons_self _ _, hline⟩
      · exact Or.inr ⟨l, List.mem_cons_of_mem _ hl, hspec⟩
    · rintro (hacc | ⟨l, hl, hspec⟩)
      · exact Or.inl (Or.inl hacc)
      · rcases List.mem_cons.mp hl with rfl | hlt
        · exact Or.inl (Or.inr hspec)
        · exact Or.inr ⟨l, hlt, hspec⟩

/-- C10: `get_blocked_hostnames` returns the empty set unless the sequential
sentinel search finds two sentinel occurrences (in particular in the corrupt
single-sentinel state), and when it does, a hostname is in the result iff it
is the lowercased form of a whitespace token after the leading token of some
non-empty, non-comment line between the first two sentinels whose first token
is exactly `0.0.0.0` — every such token, not only the second. -/
theorem getBlockedHostnames_chr (original : List Char) :
    (locateInner original = none → getBlockedHostnames original = []) ∧
    ∀ h, h ∈ getBlockedHostnames original ↔
      ∃ inner, locateInner original = some inner ∧
        ∃ line ∈ rustLines inner, specBlockedToken line h := by
  constructor
  · intro h
    simp [getBlockedHostnames, h]
  · intro h
    cases hloc : locateInner original with
    | none => simp [getBlockedHostnames, hloc]
    | some inner =>
      simp only [getBlockedHostnames, hloc]
      rw [mem_foldl_collectBlockedLine]
      simp

/-- Witness for C10 at the corrupt single-sentinel document. -/
theorem getBlockedHostnames_chr_witness :
    getBlockedHostnames (str "# --+ Make Your Choice +--") = [] :=
  (getBlockedHostnames_chr (str "# --+ Make Your Choice +--")).1 (by decide)

/-- The unowned portion of the document scanned by
`detect_conflicting_entries` (`hosts.rs` lines 266-290): content outside the
first sentinel pair, or before the sole sentinel, or the whole document. -/
def outsideContent (original : List Char) : List Char :=
  match findSub sectionMarker original with
  | some f =>
    match findSub sectionMarker (original.drop (f + sectionMarker.length)) with
    | some p =>
      original.take f ++
        original.drop (f + sectionMarker.length + p + sectionMarker.length)
    | none => original.take f
  | none => original

/-- `HostsManager::get_all_managed_hostnames` (`hosts.rs` lines 249-257):
the lowercased hostnames of every catalog region, as a set. -/
def managedHostnames (regions : List (List Char × RegionInfo)) : List (List Char) :=
  regions.foldl
    (fun acc p => p.2.hosts.foldl (fun a h => insertSet (toLowerL h) a) acc) []

/-- Processing of one unowned line by `detect_conflicting_entries`
(`hosts.rs` lines 293-310). -/
def conflictStep (managed : List (List Char)) (acc : List (List Char))
    (line : List Char) : List (List Char) :=
  if trimL line = [] ∨ (trimL line).head? = some '#' then acc
  else if 2 ≤ (splitWs (trimL line)).length then
    if toLowerL ((splitWs (trimL line)).getD 1 []) ∈ managed ∧ trimL line ∉ acc
    then acc ++ [trimL line] else acc
  else acc

/-- `HostsManager::detect_conflicting_entries` (`hosts.rs` lines 259-313). -/
def detectConflictingEntries (regions : List (List Char × RegionInfo))
    (original : List Char) : List (List Char) :=
  (rustLines (outsideContent original)).foldl
    (conflictStep (managedHostnames regions)) []

/-- The conflict condition stated after the claim's words: a trimmed line is a
conflict iff it is non-empty, not a comment, splits into at least two
whitespace tokens, and its second token lowercased is a managed hostname. -/
def specConflictLine (managed : List (List Char)) (t : List Char) : Bool :=
  (decide (t ≠ [])) && (decide (t.head? ≠ some '#')) &&
  (decide (2 ≤ (splitWs t).length)) &&
  (decide (toLowerL ((splitWs t).getD 1 []) ∈ managed))

theorem conflictStep_eq (m : List (List Char)) (acc : List (List Char))
    (line : List Char) :
    conflictStep m acc line =
      if specConflictLine m (trimL line) then dedupStep acc (trimL line)
      else acc := by
  unfold conflictStep dedupStep
  by_cases h1 : trimL line = [] ∨ (trimL line).head? = some '#'
  · rw [if_pos h1]
    have hspec : ¬ specConflictLine m (trimL line) = true := by
      simp only [specConflictLine, Bool.and_eq_true, decide_eq_true_eq]
      tauto
    rw [if_neg hspec]
  · rw [if_neg h1]
    push_neg at h1
    by_cases h2 : 2 ≤ (splitWs (trimL line)).length
    · rw [if_pos h2]
      by_cases h3 : toLowerL ((splitWs (trimL line)).getD 1 []) ∈ m
      · have hspec : specConflictLine m (trimL line) = true := by
          simp only [specConflictLine, Bool.and_eq_true, decide_eq_true_eq]
          exact ⟨⟨⟨h1.1, h1.2⟩, h2⟩, h3⟩
        rw [if_pos hspec]
        by_cases h4 : trimL line ∈ acc
        · rw [if_neg (by tauto), if_pos h4]
        · rw [if_pos ⟨h3, h4⟩, if_neg h4]
      · have hspec : ¬ specConflictLine m (trimL line) = true := by
          simp only [specConflictLine, Bool.and_eq_true, decide_eq_true_eq]
          tauto
        rw [if_neg (by tauto), if_neg hspec]
    · rw [if_neg h2]
      have hspec : ¬ specConflictLine m (trimL line) = true := by
        simp only [specConflictLine, Bool.and_eq_true, decide_eq_true_eq]
        tauto
      rw [if_neg hspec]

theorem conflict_fold_eq (m : List (List Char)) :
    ∀ (lines : List (List Char)) (acc : List (List Char)),
      lines.foldl (conflictStep m) acc =
        ((lines.map trimL).filter (specConflictLine m)).foldl dedupStep acc
  | [], _ => rfl
  | line :: t, acc => by
    rw [List.foldl_cons, conflictStep_eq, List.map_cons, List.filter_cons]
    by_cases h : specConflictLine m (trimL line) = true
    · rw [if_pos h, if_pos h, List.foldl_cons]
      exact conflict_fold_eq m t _
    · rw [if_neg h, if_neg h]
      exact conflict_fold_eq m t _

/-- C3: `detect_conflicting_entries` returns exactly the trimmed lines of the
unowned portion of the document that satisfy the conflict condition (non-empty
after trimming, not a comment, at least two whitespace tokens, second token
lowercased in the managed-hostname set), verbatim, in first-seen order and
without duplicates; lines of the managed section are never scanned. -/
theorem detectConflictingEntries_chr (regions : List (List Char × RegionInfo))
    (original : List Char) :
    detectConflictingEntries regions original =
      dedupFirst (((rustLines (outsideContent original)).map trimL).filter
        (specConflictLine (managedHostnames regions))) := by
  unfold detectConflictingEntries dedupFirst
  exact conflict_fold_eq _ _ _

/-! ## The CIDR resolver (`aws_ranges.rs`)

`u32` values are modelled as `Nat` with an explicit `% 2 ^ 32` where the Rust
arithmetic could leave 32 bits.  `get_region`'s network refresh is modelled by
passing the parsed table explicitly; its `IpAddr` parse returns `None` both
for unparsable input and for IPv6 addresses, so it is modelled by an IPv4
parser whose failure covers both. -/

/-- `AwsCidr` from `aws_ranges.rs`. -/
structure AwsCidr where
  network : Nat
  mask : Nat
  prefix_len : Nat
  region : List Char
deriving DecidableEq

/-- Embedding of Rust's `Ipv4Addr` octet parsing: decimal digits only, no
leading zeros, value at most 255. -/
def parseOctet (s : List Char) : Option Nat :=
  if s = [] then none
  else if ¬ s.all Char.isDigit then none
  else if 1 < s.length ∧ s.head? = some '0' then none
  else
    let v := s.foldl (fun a c => a * 10 + (c.toNat - 48)) 0
    if v > 255 then none else some v

/-- Embedding of Rust `Ipv4Addr::from_str` followed by `u32::from`: four
dot-separated octets, combined big-endian. -/
def parseIpv4 (s : List Char) : Option Nat :=
  match splitOnChar '.' s with
  | [a, b, c, d] => do
    let x ← parseOctet a
    let y ← parseOctet b
    let z ← parseOctet c
    let w ← parseOctet d
    pure (((x * 256 + y) * 256 + z) * 256 + w)
  | _ => none

/-- Embedding of Rust `u8::from_str`: optional leading `+`, decimal digits
(leading zeros allowed), value at most 255. -/
def parseU8 (s : List Char) : Option Nat :=
  let t := match s with
    | '+' :: r => r
    | _ => s
  if t = [] then none
  else if ¬ t.all Char.isDigit then none
  else
    let v := t.foldl (fun a c => a * 10 + (c.toNat - 48)) 0
    if v > 255 then none else some v

/-- `parse_ipv4_cidr` (`aws_ranges.rs` lines 119-137).  The Rust `let mask`
is inlined; `u32::MAX << (32 - prefix_len)` is modelled with the explicit
32-bit reduction. -/
def parseIpv4Cidr (s : List Char) : Option (Nat × Nat × Nat) :=
  match splitOnChar '/' s with
  | [ipStr, prefixStr] =>
    match parseIpv4 ipStr, parseU8 prefixStr with
    | some ip, some p =>
      if 32 < p then none
      else
        some (ip &&& (if p = 0 then 0 else ((2 ^ 32 - 1) <<< (32 - p)) % 2 ^ 32),
          (if p = 0 then 0 else ((2 ^ 32 - 1) <<< (32 - p)) % 2 ^ 32), p)
    | _, _ => none
  | _ => none

/-- One record of the feed's `prefixes` array, as accessed by `refresh`
(`aws_ranges.rs` lines 43-49): the `ip_prefix` and `region` string fields may
each be absent. -/
structure FeedRecord where
  ip_prefix : Option (List Char)
  region : Option (List Char)
deriving DecidableEq

/-- The record-processing loop of `AwsIpService::refresh`
(`aws_ranges.rs` lines 41-60): records without a non-empty `ip_prefix` and
records whose CIDR does not parse are skipped, the refresh succeeds on the
rest. -/
def buildTable : List FeedRecord → List AwsCidr
  | [] => []
  | r :: rest =>
    match r.ip_prefix with
    | some ip =>
      if ip = [] then buildTable rest
      else
        match parseIpv4Cidr ip with
        | some t =>
          { network := t.1, mask := t.2.1, prefix_len := t.2.2,
            region := r.region.getD [] } :: buildTable rest
        | none => buildTable rest
    | none => buildTable rest

/-- The acceptance condition stated after the claim's words: a record
contributes an entry iff its `ip_prefix` is present, non-empty and parses as
an IPv4 CIDR. -/
def specAccept (r : FeedRecord) : Option AwsCidr :=
  match r.ip_prefix with
  | some ip =>
    if ip ≠ [] then
      (parseIpv4Cidr ip).map (fun t =>
        { network := t.1, mask := t.2.1, prefix_len := t.2.2,
          region := r.region.getD [] })
    else none
  | none => none

/-- `get_pretty_region_name` (`aws_ranges.rs` lines 91-117). -/
def prettyRegionName (rc : List Char) : List Char :=
  if rc = str "us-east-1" then str "US East (N. Virginia)"
  else if rc = str "us-east-2" then str "US East (Ohio)"
  else if rc = str "us-west-1" then str "US West (N. California)"
  else if rc = str "us-west-2" then str "US West (Oregon)"
  else if rc = str "ca-central-1" then str "Canada (Central)"
  else if rc = str "sa-east-1" then str "South America (SÃ£o Paulo)"
  else if rc = str "eu-west-1" then str "Europe (Ireland)"
  else if rc = str "eu-west-2" then str "Europe (London)"
  else if rc = str "eu-central-1" then str "Europe (Frankfurt am Main)"
  else if rc = str "eu-north-1" then str "Europe (Stockholm)"
  else if rc = str "eu-west-3" then str "Europe (Paris)"
  else if rc = str "eu-south-1" then str "Europe (Milan)"
  else if rc = str "ap-northeast-1" then str "Asia Pacific (Tokyo)"
  else if rc = str "ap-northeast-2" then str "Asia Pacific (Seoul)"
  else if rc = str "ap-south-1" then str "Asia Pacific (Mumbai)"
  else if rc = str "ap-southeast-1" then str "Asia Pacific (Singapore)"
  else if rc = str "ap-southeast-2" then str "Asia Pacific (Sydney)"
  else if rc = str "ap-east-1" then str "Asia Pacific (Hong Kong)"
  else if rc = str "af-south-1" then str "Africa (Cape Town)"
  else if rc = str "me-south-1" then str "Middle East (Bahrain)"
  else if rc = str "ap-northeast-3" then str "Asia Pacific (Osaka)"
  else rc

/-- The best-match loop of `AwsIpService::get_region`
(`aws_ranges.rs` lines 79-86): keep the first match, then replace it only by a
strictly more specific match. -/
def selectBest (v : Nat) : Option AwsCidr → List AwsCidr → Option AwsCidr
  | best, [] => best
  | best, c :: rest =>
    selectBest v
      (if v &&& c.mask = c.network then
        (if best.all (fun b => decide (b.prefix_len < c.prefix_len)) then some c
         else best)
      else best) rest

/-- `AwsIpService::get_region` (`aws_ranges.rs` lines 67-89) over a given
table. -/
def getRegion (cidrs : List AwsCidr) (ipStr : List Char) : Option (List Char) :=
  match parseIpv4 ipStr with
  | none => none
  | some v => (selectBest v none cidrs).map (fun c => prettyRegionName c.region)

/-- The two-entry table of the claim's concrete example: `10.0.0.0/8` owned by
region `A` and `10.1.0.0/16` owned by region `B`. -/
def exTable : List AwsCidr :=
  buildTable [⟨some (str "10.0.0.0/8"), some (str "A")⟩,
              ⟨some (str "10.1.0.0/16"), some (str "B")⟩]

theorem selectBest_none_of_no_match (v : Nat) :
    ∀ l : List AwsCidr, (∀ c ∈ l, ¬ v &&& c.mask = c.network) →
      selectBest v none l = none
  | [], _ => rfl
  | c :: t, h => by
    simp only [selectBest, if_neg (h c (List.mem_cons_self _ _))]
    exact selectBest_none_of_no_match v t fun x hx => h x (List.mem_cons_of_mem _ hx)

theorem selectBest_some_spec (v : Nat) :
    ∀ (l : List AwsCidr) (best : Option AwsCidr) (c : AwsCidr),
      (∀ b, best = some b → v &&& b.mask = b.network) →
      selectBest v best l = some c →
      (v &&& c.mask = c.network) ∧ (best = some c ∨ c ∈ l) ∧
      (∀ x ∈ l, v &&& x.mask = x.network → x.prefix_len ≤ c.prefix_len) ∧
      (∀ b, best = some b → b.prefix_len ≤ c.prefix_len)
  | [], best, c, hb, h => by
    simp only [selectBest] at h
    refine ⟨hb c h, Or.inl h, ?_, ?_⟩
    · intro x hx
      exact absurd hx (List.not_mem_nil _)
    · intro b hbeq
      rw [hbeq] at h
      injection h with h'
      rw [h']
  | x :: t, best, c, hb, h => by
    simp only [selectBest] at h
    by_cases hm : v &&& x.mask = x.network
    · rw [if_pos hm] at h
      by_cases himp : best.all (fun b => decide (b.prefix_len < x.prefix_len)) = true
      · rw [if_pos himp] at h
        have ih := selectBest_some_spec v t (some x) c
          (fun b hb' => by injection hb' with hb''; rw [← hb'']; exact hm) h
        refine ⟨ih.1, ?_, ?_, ?_⟩
        · rcases ih.2.1 with h' | h'
          · injection h' with h''
            exact Or.inr (h'' ▸ List.mem_cons_self _ _)
          · exact Or.inr (List.mem_cons_of_mem _ h')
        · intro y hy hmy
          rcases List.mem_cons.mp hy with rfl | hyt
          · exact ih.2.2.2 y rfl
          · exact ih.2.2.1 y hyt hmy
        · intro b hbeq
          have hx : x.prefix_len ≤ c.prefix_len := ih.2.2.2 x rfl
          have hbx : b.prefix_len < x.prefix_len := by
            rw [hbeq] at himp
            simpa using himp
          omega
      · rw [if_neg himp] at h
        have ih := selectBest_some_spec v t best c hb h
        refine ⟨ih.1, ?_, ?_, ih.2.2.2⟩
        · rcases ih.2.1 with h' | h'
          · exact Or.inl h'
          · exact Or.inr (List.mem_cons_of_mem _ h')
        · intro y hy hmy
          rcases List.mem_cons.mp hy with rfl | hyt
          · cases hbest : best with
            | none =>
              rw [hbest] at himp
              simp at himp
            | some b0 =>
              have hnotlt : ¬ b0.prefix_len < y.prefix_len := by
                rw [hbest] at himp
                simpa using himp
              have hb0c : b0.prefix_len ≤ c.prefix_len := ih.2.2.2 b0 hbest
              omega
          · exact ih.2.2.1 y hyt hmy
    · rw [if_neg hm] at h
      have ih := selectBest_some_spec v t best c hb h
      refine ⟨ih.1, ?_, ?_, ih.2.2.2⟩
      · rcases ih.2.1 with h' | h'
        · exact Or.inl h'
        · exact Or.inr (List.mem_cons_of_mem _ h')
      · intro y hy hmy
        rcases List.mem_cons.mp hy with rfl | hyt
        · exact absurd hmy hm
        · exact ih.2.2.1 y hyt hmy

/-- C4: over any fixed table, `get_region` returns `None` for input that does
not parse as an IPv4 address (both garbage and IPv6) and when no entry's
network contains the address; when it returns a region, that region belongs to
an entry that matches the address (`network = ip AND mask`) and whose
`prefix_len` is maximal among all matching entries.  In particular, with
entries `10.0.0.0/8` in region `A` and `10.1.0.0/16` in region `B`, querying
`10.1.2.3` answers `B` and `10.2.2.3` answers `A`. -/
theorem getRegion_lpm :
    (∀ (cidrs : List AwsCidr) (s : List Char),
      parseIpv4 s = none → getRegion cidrs s = none) ∧
    (∀ (cidrs : List AwsCidr) (s : List Char) (v : Nat), parseIpv4 s = some v →
      ((∀ c ∈ cidrs, ¬ v &&& c.mask = c.network) → getRegion cidrs s = none) ∧
      (∀ r, getRegion cidrs s = some r →
        ∃ c ∈ cidrs, v &&& c.mask = c.network ∧ r = prettyRegionName c.region ∧
          ∀ x ∈ cidrs, v &&& x.mask = x.network →
            x.prefix_len ≤ c.prefix_len)) ∧
    getRegion exTable (str "10.1.2.3") = some (str "B") ∧
    getRegion exTable (str "10.2.2.3") = some (str "A") := by
  refine ⟨?_, ?_, by decide, by decide⟩
  · intro cidrs s h
    simp [getRegion, h]
  · intro cidrs s v h
    constructor
    · intro hno
      simp only [getRegion, h]
      rw [selectBest_none_of_no_match v cidrs hno]
      rfl
    · intro r hr
      simp only [getRegion, h] at hr
      rcases Option.map_eq_some'.mp hr with ⟨c, hc, rfl⟩
      have hspec := selectBest_some_spec v cidrs none c (by rintro b ⟨⟩) hc
      rcases hspec with ⟨h1', h2', h3', -⟩
      rcases h2' with h2' | h2'
      · cases h2'
      · exact ⟨c, h2', h1', rfl, h3'⟩

/-- Witness for C4: a non-IPv4 input yields no region, and the claim's
concrete overlapping-prefix query answers the more specific region. -/
theorem getRegion_lpm_witness :
    getRegion [] (str "not-an-ip") = none ∧
    getRegion exTable (str "10.1.2.3") = some (str "B") :=
  ⟨getRegion_lpm.1 [] (str "not-an-ip") (by decide), getRegion_lpm.2.2.1⟩

theorem shift_mask_eq {p : Nat} (h1 : 1 ≤ p) (h2 : p ≤ 32) :
    ((2 ^ 32 - 1) <<< (32 - p)) % 2 ^ 32 = 2 ^ 32 - 2 ^ (32 - p) := by
  rw [Nat.shiftLeft_eq]
  have hx : 2 ^ (32 - p) ≤ 2 ^ 31 := Nat.pow_le_pow_right (by norm_num) (by omega)
  have hx1 : 1 ≤ 2 ^ (32 - p) := Nat.one_le_two_pow
  have h31 : (2 : Nat) ^ 31 = 2147483648 := by norm_num
  have h32 : (2 : Nat) ^ 32 = 4294967296 := by norm_num
  have key : ∀ x : Nat, 1 ≤ x → x ≤ 2147483648 →
      (4294967296 - 1) * x % 4294967296 = 4294967296 - x := by
    intro x ha hb
    have hrw : (4294967296 - 1) * x = (4294967296 - x) + (x - 1) * 4294967296 := by
      omega
    rw [hrw, Nat.add_mul_mod_self_right]
    exact Nat.mod_eq_of_lt (by omega)
  rw [h32]
  exact key _ hx1 (h31 ▸ hx)

/-- C8: `refresh` builds the table from exactly the records whose `ip_prefix`
is present, non-empty and parses as an IPv4 CIDR (skipping the rest without
failing); `parse_ipv4_cidr` returns `None` when the string does not split on
`/` into exactly two segments (extra segments), when the address part is not a
valid IPv4 literal, and when the prefix length exceeds 32; and every accepted
record yields the masked network, the mask (0 for prefix length 0, otherwise
the top `prefix_len` bits set), and the prefix length. -/
theorem buildTable_spec :
    (∀ rs : List FeedRecord, buildTable rs = rs.filterMap specAccept) ∧
    (∀ s : List Char, (splitOnChar '/' s).length ≠ 2 → parseIpv4Cidr s = none) ∧
    (∀ s a b, splitOnChar '/' s = [a, b] → parseIpv4 a = none →
      parseIpv4Cidr s = none) ∧
    (∀ s a b k, splitOnChar '/' s = [a, b] → parseU8 b = some k → 32 < k →
      parseIpv4Cidr s = none) ∧
    (∀ s n m p, parseIpv4Cidr s = some (n, m, p) →
      p ≤ 32 ∧ m = (if p = 0 then 0 else 2 ^ 32 - 2 ^ (32 - p)) ∧
      ∃ a b ip, splitOnChar '/' s = [a, b] ∧ parseIpv4 a = some ip ∧
        parseU8 b = some p ∧ n = ip &&& m) := by
  refine ⟨?_, ?_, ?_, ?_, ?_⟩
  · intro rs
    induction rs with
    | nil => rfl
    | cons r rest ih =>
      rw [List.filterMap_cons]
      cases hip : r.ip_prefix with
      | none => simp [buildTable, hip, specAccept, ih]
      | some ip =>
        by_cases hemp : ip = []
        · simp [buildTable, hip, specAccept, hemp, ih]
        · cases hp : parseIpv4Cidr ip with
          | none => simp [buildTable, hip, specAccept, hemp, hp, ih]
          | some t => simp [buildTable, hip, specAccept, hemp, hp, ih]
  · intro s hlen
    unfold parseIpv4Cidr
    cases hs : splitOnChar '/' s with
    | nil => rfl
    | cons a t =>
      cases t with
      | nil => rfl
      | cons b t2 =>
        cases t2 with
        | nil =>
          exfalso
          apply hlen
          rw [hs]
          rfl
        | cons c t3 => rfl
  · intro s a b hs ha
    simp [parseIpv4Cidr, hs, ha]
  · intro s a b k hs hb hk
    cases hip : parseIpv4 a with
    | none => simp [parseIpv4Cidr, hs, hip]
    | some ip => simp [parseIpv4Cidr, hs, hip, hb, hk]
  · intro s n m p h
    cases hs : splitOnChar '/' s with
    | nil => simp [parseIpv4Cidr, hs] at h
    | cons a t =>
      cases t with
      | nil => simp [parseIpv4Cidr, hs] at h
      | cons b t2 =>
        cases t2 with
        | cons c t3 => simp [parseIpv4Cidr, hs] at h
        | nil =>
          cases hip : parseIpv4 a with
          | none => simp [parseIpv4Cidr, hs, hip] at h
          | some ip =>
            cases hu : parseU8 b with
            | none => simp [parseIpv4Cidr, hs, hip, hu] at h
            | some p' =>
              by_cases hgt : 32 < p'
              · simp [parseIpv4Cidr, hs, hip, hu, hgt] at h
              · simp only [parseIpv4Cidr, hs, hip, hu, if_neg hgt,
                  Option.some.injEq, Prod.mk.injEq] at h
                rcases h with ⟨hn, hm, hp⟩
                subst hp
                have hmask : (if p' = 0 then (0 : Nat)
                    else ((2 ^ 32 - 1) <<< (32 - p')) % 2 ^ 32) =
                    (if p' = 0 then 0 else 2 ^ 32 - 2 ^ (32 - p')) := by
                  by_cases hp0 : p' = 0
                  · rw [if_pos hp0, if_pos hp0]
                  · rw [if_neg hp0, if_neg hp0,
                      shift_mask_eq (by omega) (by omega)]
                refine ⟨by omega, ?_, a, b, ip, rfl, hip, hu, ?_⟩
                · rw [← hm, hmask]
                · rw [← hn, ← hm]

/-- Witness for C8: an address with an extra `/`-separated segment and a
prefix length above 32 are both rejected by `parse_ipv4_cidr`. -/
theorem buildTable_spec_witness :
    parseIpv4Cidr (str "10.0.0.0/8/9") = none ∧
    parseIpv4Cidr (str "1.2.3.4/40") = none :=
  ⟨buildTable_spec.2.1 (str "10.0.0.0/8/9") (by decide),
   buildTable_spec.2.2.2.1 (str "1.2.3.4/40") (str "1.2.3.4") (str "40") 40
     (by decide) (by decide) (by decide)⟩

end MYC
